import Mathlib

/-!
Verification of the run-collapsing line filter in `src/workers/re_uniq.py`.

The Python `main` keeps a cursor `found` (initially `-2`) and iterates over
the enumerated input lines.  For line `i`:
  * `if matcher.search(line) and (i - found != 1): write(line); found = i; continue`
  * `if matcher.search(line) and (i - found == 1): found = i; continue`
  * otherwise: `write(line)`.

We embed that loop as `mainLoop`, a pure recursion over the list of lines that
returns the written lines, the final value of `found`, and the number of times
`matcher.search` was invoked on each line (following Python's short-circuit
evaluation of `and`).
-/

namespace ReUniq

variable {α β : Type}

/-- Shallow embedding of the loop body of `main` in `src/workers/re_uniq.py`.
Arguments: the match predicate `m` (for `matcher.search(line)` coerced to a
boolean), the remaining lines, the current enumeration index `i`, and the
cursor `found`.  Returns the emitted lines, the final `found`, and the count
of predicate invocations per processed line: in the first branch the `and`
short-circuits after one successful `search`; otherwise both `if` statements
call `search`, giving two invocations. -/
def mainLoop (m : α → Bool) : List α → Nat → Int → List α × Int × List Nat
  | [], _, found => ([], found, [])
  | line :: rest, i, found =>
    if m line = true ∧ (i : Int) - found ≠ 1 then
      let r := mainLoop m rest (i + 1) i
      (line :: r.1, r.2.1, 1 :: r.2.2)
    else if m line = true ∧ (i : Int) - found = 1 then
      let r := mainLoop m rest (i + 1) i
      (r.1, r.2.1, 2 :: r.2.2)
    else
      let r := mainLoop m rest (i + 1) found
      (line :: r.1, r.2.1, 2 :: r.2.2)

/-- The filtered output of one pass of `main`: lines written to `output_buf`,
starting from index `0` and the sentinel cursor `-2`. -/
def reUniq (m : α → Bool) (lines : List α) : List α :=
  (mainLoop m lines 0 (-2)).1

/-- Final value of the cursor `found` after one pass of `main`. -/
def foundAfter (m : α → Bool) (lines : List α) : Int :=
  (mainLoop m lines 0 (-2)).2.1

/-- Number of calls to the match predicate on each line during one pass. -/
def callCounts (m : α → Bool) (lines : List α) : List Nat :=
  (mainLoop m lines 0 (-2)).2.2

/-- One pass of `main` on the enumerated input: each line is tagged with its
index, and the predicate ignores the tag.  Used to speak about which
*positions* of the input are emitted. -/
def reUniqIdx (m : α → Bool) (lines : List α) : List (Nat × α) :=
  reUniq (fun p => m p.2) lines.enum

/-- Whether the line at position `i` of the input is emitted by the pass. -/
def emittedAt (m : α → Bool) (lines : List α) (i : Nat) : Bool :=
  (reUniqIdx m lines).any (fun p => p.1 == i)

/-- Analysis view of the loop: the only information the branch conditions
extract from `(i, found)` is whether the previous line matched, carried here
as the boolean `prev`.  A line is dropped exactly when it matches and the
previous line matched. -/
def collapseFrom (m : α → Bool) : Bool → List α → List α
  | _, [] => []
  | prev, a :: rest =>
    if prev && m a then collapseFrom m (m a) rest
    else a :: collapseFrom m (m a) rest

/-- Analysis view of the per-line predicate call counts: one call on a
matching line not preceded by a matching line (the first `and`
short-circuits into the taken branch), two calls otherwise. -/
def callsSpec (m : α → Bool) : Bool → List α → List Nat
  | _, [] => []
  | prev, a :: rest =>
    (if m a then (if prev then 2 else 1) else 2) :: callsSpec m (m a) rest

/-- Positions (counting from `n`) of the lines kept by `collapseFrom`. -/
def keptIndices (m : α → Bool) : Bool → List α → Nat → List Nat
  | _, [], _ => []
  | prev, a :: rest, n =>
    if prev && m a then keptIndices m (m a) rest (n + 1)
    else n :: keptIndices m (m a) rest (n + 1)

theorem mainLoop_out_eq_collapseFrom (m : α → Bool) :
    ∀ (l : List α) (i : Nat) (found : Int) (b : Bool), found < (i : Int) →
      (b = true ↔ (i : Int) - found = 1) →
      (mainLoop m l i found).1 = collapseFrom m b l := by
  intro l
  induction l with
  | nil => intro i found b _ _; rfl
  | cons a rest ih =>
    intro i found b hlt hb
    by_cases hm : m a = true
    · have ihr := ih (i + 1) i true
        (by push_cast; omega)
        (by simp only [true_iff]; push_cast; omega)
      by_cases he : (i : Int) - found = 1
      · have hbt : b = true := hb.mpr he
        have h1 : ¬ (m a = true ∧ (i : Int) - found ≠ 1) := fun h => h.2 he
        simp only [mainLoop]
        rw [if_neg h1, if_pos ⟨hm, he⟩]
        simp only [collapseFrom, hbt, hm, Bool.and_self, if_true]
        exact ihr
      · have hbf : b = false := by
          rcases Bool.eq_false_or_eq_true b with h | h
          · exact absurd (hb.mp h) he
          · exact h
        simp only [mainLoop]
        rw [if_pos ⟨hm, he⟩]
        simp [collapseFrom, hbf, hm, ihr]
    · have hmf : m a = false := by simpa using hm
      have h1 : ¬ (m a = true ∧ (i : Int) - found ≠ 1) := fun h => hm h.1
      have h2 : ¬ (m a = true ∧ (i : Int) - found = 1) := fun h => hm h.1
      have ihr := ih (i + 1) found false
        (by push_cast; omega)
        (by simp only [Bool.false_eq_true, false_iff]; push_cast; omega)
      simp only [mainLoop]
      rw [if_neg h1, if_neg h2]
      simp [collapseFrom, hmf, ihr]

theorem reUniq_eq_collapseFrom (m : α → Bool) (l : List α) :
    reUniq m l = collapseFrom m false l := by
  have := mainLoop_out_eq_collapseFrom m l 0 (-2) false (by omega) (by decide)
  simpa using this

theorem collapseFrom_sublist (m : α → Bool) :
    ∀ (b : Bool) (l : List α), List.Sublist (collapseFrom m b l) l := by
  intro b l
  induction l generalizing b with
  | nil => exact List.Sublist.refl []
  | cons a rest ih =>
    simp only [collapseFrom]
    by_cases h : (b && m a) = true
    · rw [if_pos h]
      exact (ih (m a)).cons a
    · rw [if_neg h]
      exact (ih (m a)).cons₂ a

theorem collapseFrom_filter_not (m : α → Bool) :
    ∀ (b : Bool) (l : List α),
      (collapseFrom m b l).filter (fun x => !(m x)) = l.filter (fun x => !(m x)) := by
  intro b l
  induction l generalizing b with
  | nil => rfl
  | cons a rest ih =>
    simp only [collapseFrom]
    by_cases hm : m a = true
    · by_cases hb : b = true
      · rw [if_pos (by simp [hm, hb])]
        rw [ih]
        simp [List.filter_cons, hm]
      · have hbf : b = false := by simpa using hb
        rw [if_neg (by simp [hbf])]
        simp [List.filter_cons, hm, ih]
    · have hmf : m a = false := by simpa using hm
      rw [if_neg (by simp [hmf])]
      simp [List.filter_cons, hmf, ih]

theorem collapseFrom_of_no_match (m : α → Bool) :
    ∀ (b : Bool) (l : List α), (∀ x ∈ l, m x = false) → collapseFrom m b l = l := by
  intro b l
  induction l generalizing b with
  | nil => intro _; rfl
  | cons a rest ih =>
    intro h
    have hmf : m a = false := h a (List.mem_cons_self a rest)
    simp only [collapseFrom]
    rw [if_neg (by simp [hmf])]
    exact congrArg (a :: ·) (ih (m a) (fun x hx => h x (List.mem_cons_of_mem a hx)))

theorem collapseFrom_true_of_all_match (m : α → Bool) :
    ∀ (l : List α), (∀ x ∈ l, m x = true) → collapseFrom m true l = [] := by
  intro l
  induction l with
  | nil => intro _; rfl
  | cons a rest ih =>
    intro h
    have hmt : m a = true := h a (List.mem_cons_self a rest)
    simp only [collapseFrom]
    rw [if_pos (by simp [hmt]), hmt]
    exact ih (fun x hx => h x (List.mem_cons_of_mem a hx))

theorem collapseFrom_false_of_all_match (m : α → Bool) :
    ∀ (a : α) (rest : List α), (∀ x ∈ a :: rest, m x = true) →
      collapseFrom m false (a :: rest) = [a] := by
  intro a rest h
  have hmt : m a = true := h a (List.mem_cons_self a rest)
  simp only [collapseFrom]
  rw [if_neg (by simp), hmt]
  rw [collapseFrom_true_of_all_match m rest (fun x hx => h x (List.mem_cons_of_mem a hx))]

theorem collapseFrom_true_head_not_match (m : α → Bool) :
    ∀ (l : List α) (x : α), (collapseFrom m true l).head? = some x → m x = false := by
  intro l
  induction l with
  | nil => intro x hx; cases hx
  | cons a rest ih =>
    intro x hx
    by_cases hm : m a = true
    · apply ih
      rw [← hx]
      simp only [collapseFrom]
      rw [if_pos (by simp [hm]), hm]
    · have hmf : m a = false := by simpa using hm
      simp only [collapseFrom] at hx
      rw [if_neg (by simp [hmf])] at hx
      simp only [List.head?_cons, Option.some.injEq] at hx
      rw [← hx]
      exact hmf

theorem collapseFrom_flag_of_head (m : α → Bool) (b₁ b₂ : Bool) :
    ∀ (l : List α), (∀ x, l.head? = some x → m x = false) →
      collapseFrom m b₁ l = collapseFrom m b₂ l := by
  intro l h
  cases l with
  | nil => rfl
  | cons a rest =>
    have hmf : m a = false := h a rfl
    simp only [collapseFrom]
    rw [if_neg (by simp [hmf]), if_neg (by simp [hmf])]

theorem collapseFrom_idem (m : α → Bool) :
    ∀ (l : List α) (b : Bool),
      collapseFrom m false (collapseFrom m b l) = collapseFrom m b l := by
  intro l
  induction l with
  | nil => intro b; rfl
  | cons a rest ih =>
    intro b
    by_cases hm : m a = true
    · by_cases hb : b = true
      · subst hb
        have h1 : collapseFrom m true (a :: rest) = collapseFrom m true rest := by
          simp only [collapseFrom]
          rw [if_pos (by simp [hm]), hm]
        rw [h1, ih true]
      · have hbf : b = false := by simpa using hb
        subst hbf
        have h1 : collapseFrom m false (a :: rest) = a :: collapseFrom m true rest := by
          simp only [collapseFrom]
          rw [if_neg (by simp), hm]
        rw [h1]
        simp only [collapseFrom]
        rw [if_neg (by simp), hm]
        have hflag : collapseFrom m true (collapseFrom m true rest) =
            collapseFrom m false (collapseFrom m true rest) :=
          collapseFrom_flag_of_head m true false _ (by
            intro x hx
            exact collapseFrom_true_head_not_match m rest x hx)
        rw [hflag, ih true]
    · have hmf : m a = false := by simpa using hm
      have h1 : collapseFrom m b (a :: rest) = a :: collapseFrom m false rest := by
        simp only [collapseFrom]
        rw [if_neg (by simp [hmf]), hmf]
      rw [h1]
      simp only [collapseFrom]
      rw [if_neg (by simp), hmf]
      rw [ih false]

theorem mainLoop_counts_eq_callsSpec (m : α → Bool) :
    ∀ (l : List α) (i : Nat) (found : Int) (b : Bool), found < (i : Int) →
      (b = true ↔ (i : Int) - found = 1) →
      (mainLoop m l i found).2.2 = callsSpec m b l := by
  intro l
  induction l with
  | nil => intro i found b _ _; rfl
  | cons a rest ih =>
    intro i found b hlt hb
    by_cases hm : m a = true
    · have ihr := ih (i + 1) i true
        (by push_cast; omega)
        (by simp only [true_iff]; push_cast; omega)
      by_cases he : (i : Int) - found = 1
      · have hbt : b = true := hb.mpr he
        have h1 : ¬ (m a = true ∧ (i : Int) - found ≠ 1) := fun h => h.2 he
        simp only [mainLoop]
        rw [if_neg h1, if_pos ⟨hm, he⟩]
        simp only [callsSpec, hbt, hm, if_true]
        exact congrArg (2 :: ·) ihr
      · have hbf : b = false := by
          rcases Bool.eq_false_or_eq_true b with h | h
          · exact absurd (hb.mp h) he
          · exact h
        simp only [mainLoop]
        rw [if_pos ⟨hm, he⟩]
        simp only [callsSpec, hbf, hm, if_true, if_false]
        exact congrArg (1 :: ·) ihr
    · have hmf : m a = false := by simpa using hm
      have h1 : ¬ (m a = true ∧ (i : Int) - found ≠ 1) := fun h => hm h.1
      have h2 : ¬ (m a = true ∧ (i : Int) - found = 1) := fun h => hm h.1
      have ihr := ih (i + 1) found false
        (by push_cast; omega)
        (by simp only [Bool.false_eq_true, false_iff]; push_cast; omega)
      simp only [mainLoop]
      rw [if_neg h1, if_neg h2]
      simp only [callsSpec, hmf, if_false]
      exact congrArg (2 :: ·) ihr

theorem callCounts_eq_callsSpec (m : α → Bool) (l : List α) :
    callCounts m l = callsSpec m false l := by
  have := mainLoop_counts_eq_callsSpec m l 0 (-2) false (by omega) (by decide)
  simpa using this

theorem mainLoop_found_step (m : α → Bool) (a : α) (rest : List α) (i : Nat) (found : Int) :
    (mainLoop m (a :: rest) i found).2.1 =
      (mainLoop m rest (i + 1) (if m a then (i : Int) else found)).2.1 := by
  by_cases hm : m a = true
  · by_cases he : (i : Int) - found = 1
    · have h1 : ¬ (m a = true ∧ (i : Int) - found ≠ 1) := fun h => h.2 he
      simp only [mainLoop]
      rw [if_neg h1, if_pos ⟨hm, he⟩, if_pos hm]
    · simp only [mainLoop]
      rw [if_pos ⟨hm, he⟩, if_pos hm]
  · have hmf : m a = false := by simpa using hm
    have h1 : ¬ (m a = true ∧ (i : Int) - found ≠ 1) := fun h => hm h.1
    have h2 : ¬ (m a = true ∧ (i : Int) - found = 1) := fun h => hm h.1
    simp only [mainLoop]
    rw [if_neg h1, if_neg h2, if_neg hm]

theorem mainLoop_found_charact (m : String → Bool) :
    ∀ (l : List String) (i : Nat) (found : Int),
      ((mainLoop m l i found).2.1 = found ∧ ∀ x ∈ l, m x = false) ∨
      (∃ k : Nat, k < l.length ∧ (mainLoop m l i found).2.1 = (i : Int) + k ∧
        m (l.getD k "") = true ∧
        ∀ j, k < j → j < l.length → m (l.getD j "") = false) := by
  intro l
  induction l with
  | nil => intro i found; exact Or.inl ⟨rfl, by simp⟩
  | cons a rest ih =>
    intro i found
    rw [mainLoop_found_step]
    by_cases hm : m a = true
    · rw [if_pos hm]
      rcases ih (i + 1) i with ⟨hres, hall⟩ | ⟨k, hk, hres, hmk, hafter⟩
      · refine Or.inr ⟨0, by simp, ?_, by simpa using hm, ?_⟩
        · rw [hres]; push_cast; ring
        · intro j hj0 hjlen
          obtain ⟨j', rfl⟩ : ∃ j', j = j' + 1 := ⟨j - 1, by omega⟩
          rw [List.getD_cons_succ]
          simp only [List.length_cons] at hjlen
          have hjr : j' < rest.length := by omega
          rw [List.getD_eq_getElem _ _ hjr]
          exact hall _ (List.getElem_mem hjr)
      · refine Or.inr ⟨k + 1, by simp only [List.length_cons]; omega, ?_, ?_, ?_⟩
        · rw [hres]; push_cast; ring
        · rw [List.getD_cons_succ]; exact hmk
        · intro j hj hjlen
          obtain ⟨j', rfl⟩ : ∃ j', j = j' + 1 := ⟨j - 1, by omega⟩
          rw [List.getD_cons_succ]
          simp only [List.length_cons] at hjlen
          exact hafter j' (by omega) (by omega)
    · have hmf : m a = false := by simpa using hm
      rw [if_neg hm]
      rcases ih (i + 1) found with ⟨hres, hall⟩ | ⟨k, hk, hres, hmk, hafter⟩
      · refine Or.inl ⟨hres, ?_⟩
        intro x hx
        rcases List.mem_cons.mp hx with h | h
        · rw [h]; exact hmf
        · exact hall x h
      · refine Or.inr ⟨k + 1, by simp only [List.length_cons]; omega, ?_, ?_, ?_⟩
        · rw [hres]; push_cast; ring
        · rw [List.getD_cons_succ]; exact hmk
        · intro j hj hjlen
          obtain ⟨j', rfl⟩ : ∃ j', j = j' + 1 := ⟨j - 1, by omega⟩
          rw [List.getD_cons_succ]
          simp only [List.length_cons] at hjlen
          exact hafter j' (by omega) (by omega)

theorem foundAfter_charact (m : String → Bool) (l : List String) :
    (foundAfter m l = -2 ∧ ∀ x ∈ l, m x = false) ∨
    (∃ k : Nat, k < l.length ∧ foundAfter m l = (k : Int) ∧
      m (l.getD k "") = true ∧
      ∀ j, k < j → j < l.length → m (l.getD j "") = false) := by
  have h := mainLoop_found_charact m l 0 (-2)
  rcases h with ⟨hres, hall⟩ | ⟨k, hk, hres, hmk, hafter⟩
  · exact Or.inl ⟨hres, hall⟩
  · refine Or.inr ⟨k, hk, ?_, hmk, hafter⟩
    rw [foundAfter, hres]
    push_cast
    ring

theorem collapseFrom_enumFrom_map_fst (m : α → Bool) :
    ∀ (l : List α) (b : Bool) (n : Nat),
      (collapseFrom (fun p : Nat × α => m p.2) b (l.enumFrom n)).map Prod.fst =
        keptIndices m b l n := by
  intro l
  induction l with
  | nil => intro b n; rfl
  | cons a rest ih =>
    intro b n
    have henum : (a :: rest).enumFrom n = (n, a) :: rest.enumFrom (n + 1) := rfl
    rw [henum]
    simp only [collapseFrom, keptIndices]
    by_cases h : (b && m a) = true
    · rw [if_pos (by simpa using h), if_pos h]
      exact ih (m a) (n + 1)
    · rw [if_neg (by simpa using h), if_neg h]
      simp only [List.map_cons]
      exact congrArg (n :: ·) (ih (m a) (n + 1))

theorem mem_keptIndices (m : String → Bool) :
    ∀ (l : List String) (b : Bool) (n i : Nat),
      i ∈ keptIndices m b l n ↔
        ∃ k, k < l.length ∧ i = n + k ∧
          (m (l.getD k "") = false ∨ (k = 0 ∧ b = false) ∨
            (0 < k ∧ m (l.getD (k - 1) "") = false)) := by
  intro l
  induction l with
  | nil =>
    intro b n i
    simp [keptIndices]
  | cons a rest ih =>
    intro b n i
    have hshift : ∀ j : Nat,
        ((a :: rest).getD (j + 1) "" = rest.getD j "") ∧
        ((a :: rest).getD j "" = if j = 0 then a else rest.getD (j - 1) "") := by
      intro j
      refine ⟨List.getD_cons_succ, ?_⟩
      cases j with
      | zero => simp
      | succ j' => simp [List.getD_cons_succ]
    constructor
    · intro hmem
      simp only [keptIndices] at hmem
      by_cases hc : (b && m a) = true
      · rw [if_pos hc] at hmem
        obtain ⟨k', hk', hik', hcond'⟩ := (ih (m a) (n + 1) i).mp hmem
        refine ⟨k' + 1, by simp only [List.length_cons]; omega, by omega, ?_⟩
        rcases hcond' with h | ⟨hk0, hma⟩ | ⟨hkpos, hprev⟩
        · exact Or.inl (by rw [(hshift k').1]; exact h)
        · refine Or.inr (Or.inr ⟨by omega, ?_⟩)
          simp only [Nat.add_sub_cancel]
          rw [(hshift k').2, if_pos hk0]
          exact hma
        · refine Or.inr (Or.inr ⟨by omega, ?_⟩)
          simp only [Nat.add_sub_cancel]
          rw [(hshift k').2, if_neg (by omega)]
          exact hprev
      · rw [if_neg hc] at hmem
        rcases List.mem_cons.mp hmem with h | h
        · refine ⟨0, by simp, by omega, ?_⟩
          have hc' : b = false ∨ m a = false := by
            by_cases hb : b = true
            · by_cases hma : m a = true
              · exact absurd (by simp [hb, hma]) hc
              · exact Or.inr (by simpa using hma)
            · exact Or.inl (by simpa using hb)
          rcases hc' with hb | hma
          · exact Or.inr (Or.inl ⟨rfl, hb⟩)
          · exact Or.inl (by simpa using hma)
        · obtain ⟨k', hk', hik', hcond'⟩ := (ih (m a) (n + 1) i).mp h
          refine ⟨k' + 1, by simp only [List.length_cons]; omega, by omega, ?_⟩
          rcases hcond' with hx | ⟨hk0, hma⟩ | ⟨hkpos, hprev⟩
          · exact Or.inl (by rw [(hshift k').1]; exact hx)
          · refine Or.inr (Or.inr ⟨by omega, ?_⟩)
            simp only [Nat.add_sub_cancel]
            rw [(hshift k').2, if_pos hk0]
            exact hma
          · refine Or.inr (Or.inr ⟨by omega, ?_⟩)
            simp only [Nat.add_sub_cancel]
            rw [(hshift k').2, if_neg (by omega)]
            exact hprev
    · intro hex
      obtain ⟨k, hk, hik, hcond⟩ := hex
      simp only [keptIndices]
      cases k with
      | zero =>
        have hcnot : ¬ ((b && m a) = true) := by
          rcases hcond with h | ⟨_, hb⟩ | ⟨h0, _⟩
          · simp only [List.getD_cons_zero] at h
            simp [h]
          · simp [hb]
          · omega
        rw [if_neg hcnot]
        simp only [List.mem_cons]
        exact Or.inl (by omega)
      | succ k' =>
        have hmemr : i ∈ keptIndices m (m a) rest (n + 1) := by
          apply (ih (m a) (n + 1) i).mpr
          refine ⟨k', by simp only [List.length_cons] at hk; omega, by omega, ?_⟩
          rcases hcond with h | ⟨hk0, _⟩ | ⟨_, hprev⟩
          · exact Or.inl (by rw [(hshift k').1] at h; exact h)
          · omega
          · rw [Nat.add_sub_cancel, (hshift k').2] at hprev
            by_cases hk0 : k' = 0
            · rw [if_pos hk0] at hprev
              exact Or.inr (Or.inl ⟨hk0, hprev⟩)
            · rw [if_neg hk0] at hprev
              exact Or.inr (Or.inr ⟨by omega, hprev⟩)
        by_cases hc : (b && m a) = true
        · rw [if_pos hc]; exact hmemr
        · rw [if_neg hc]; exact List.mem_cons_of_mem _ hmemr

theorem reUniqIdx_map_fst (m : α → Bool) (l : List α) :
    (reUniqIdx m l).map Prod.fst = keptIndices m false l 0 := by
  rw [reUniqIdx, reUniq_eq_collapseFrom]
  have henum : l.enum = l.enumFrom 0 := rfl
  rw [henum]
  exact collapseFrom_enumFrom_map_fst m l false 0

theorem reUniqIdx_map_snd (m : α → Bool) (l : List α) :
    ∀ (i : Nat) (found : Int),
      (mainLoop (fun p : Nat × α => m p.2) (l.enumFrom i) i found).1.map Prod.snd =
        (mainLoop m l i found).1 := by
  induction l with
  | nil => intro i found; rfl
  | cons a rest ih =>
    intro i found
    have henum : (a :: rest).enumFrom i = (i, a) :: rest.enumFrom (i + 1) := rfl
    rw [henum]
    by_cases hm : m a = true
    · by_cases he : (i : Int) - found = 1
      · have h1 : ¬ (m a = true ∧ (i : Int) - found ≠ 1) := fun h => h.2 he
        simp only [mainLoop]
        rw [if_neg h1, if_pos ⟨hm, he⟩, if_neg h1, if_pos ⟨hm, he⟩]
        exact ih (i + 1) i
      · simp only [mainLoop]
        rw [if_pos ⟨hm, he⟩, if_pos ⟨hm, he⟩]
        simp only [List.map_cons]
        exact congrArg (a :: ·) (ih (i + 1) i)
    · have h1 : ¬ (m a = true ∧ (i : Int) - found ≠ 1) := fun h => hm h.1
      have h2 : ¬ (m a = true ∧ (i : Int) - found = 1) := fun h => hm h.1
      simp only [mainLoop]
      rw [if_neg h1, if_neg h2, if_neg h1, if_neg h2]
      simp only [List.map_cons]
      exact congrArg (a :: ·) (ih (i + 1) found)

theorem reUniqIdx_proj (m : α → Bool) (l : List α) :
    (reUniqIdx m l).map Prod.snd = reUniq m l := by
  rw [reUniqIdx, reUniq, reUniq]
  have henum : l.enum = l.enumFrom 0 := rfl
  rw [henum]
  exact reUniqIdx_map_snd m l 0 (-2)

theorem emittedAt_iff (m : String → Bool) (l : List String) (i : Nat)
    (hi : i < l.length) :
    emittedAt m l i = true ↔
      (m (l.getD i "") = false ∨ i = 0 ∨ m (l.getD (i - 1) "") = false) := by
  have hmem : (emittedAt m l i = true) ↔ i ∈ (reUniqIdx m l).map Prod.fst := by
    rw [emittedAt, List.any_eq_true]
    constructor
    · rintro ⟨p, hp, hpi⟩
      exact List.mem_map.mpr ⟨p, hp, by simpa using hpi⟩
    · intro h
      obtain ⟨p, hp, hpi⟩ := List.mem_map.mp h
      exact ⟨p, hp, by simpa using hpi⟩
  rw [hmem, reUniqIdx_map_fst, mem_keptIndices]
  constructor
  · rintro ⟨k, hk, hik, hcond⟩
    have hki : k = i := by omega
    subst hki
    rcases hcond with h | ⟨h0, _⟩ | ⟨_, h⟩
    · exact Or.inl h
    · exact Or.inr (Or.inl h0)
    · exact Or.inr (Or.inr h)
  · intro h
    refine ⟨i, hi, by omega, ?_⟩
    rcases h with h | h0 | h
    · exact Or.inl h
    · exact Or.inr (Or.inl ⟨h0, rfl⟩)
    · by_cases h0 : i = 0
      · subst h0
        simp only [Nat.zero_sub] at h
        exact Or.inl h
      · exact Or.inr (Or.inr ⟨by omega, h⟩)

theorem callsSpec_le_two (m : α → Bool) :
    ∀ (b : Bool) (l : List α), ∀ c ∈ callsSpec m b l, c ≤ 2 := by
  intro b l
  induction l generalizing b with
  | nil => intro c hc; simp [callsSpec] at hc
  | cons a rest ih =>
    intro c hc
    simp only [callsSpec, List.mem_cons] at hc
    rcases hc with h | h
    · subst h; split_ifs <;> omega
    · exact ih (m a) c h

/-- C1: for every maximal contiguous run of matching lines `l[s..e]` (length
k ≥ 1), the pass emits exactly one line of the run, namely the one at the
run's first index `s`, and the emitted lines form a subsequence of the input,
so their relative order is the input order. -/
theorem claim_c1_run_collapse (m : String → Bool) (l : List String) (s e : Nat)
    (hse : s ≤ e) (hel : e < l.length)
    (hrun : ∀ j, s ≤ j → j ≤ e → m (l.getD j "") = true)
    (hleft : s = 0 ∨ m (l.getD (s - 1) "") = false)
    (hright : e + 1 = l.length ∨ m (l.getD (e + 1) "") = false) :
    (∀ j, s ≤ j → j ≤ e → (emittedAt m l j = true ↔ j = s)) ∧
      List.Sublist (reUniq m l) l := by
  constructor
  · intro j hsj hje
    have hj : j < l.length := by omega
    rw [emittedAt_iff m l j hj]
    constructor
    · intro h
      rcases h with h | h | h
      · exact absurd (hrun j hsj hje) (by rw [h]; simp)
      · omega
      · by_cases hjs : j = s
        · exact hjs
        · have hj1a : s ≤ j - 1 := by omega
          have hj1b : j - 1 ≤ e := by omega
          exact absurd (hrun (j - 1) hj1a hj1b) (by rw [h]; simp)
    · intro hjs
      subst hjs
      rcases hleft with h0 | hprev
      · exact Or.inr (Or.inl h0)
      · exact Or.inr (Or.inr hprev)
  · rw [reUniq_eq_collapseFrom]
    exact collapseFrom_sublist m false l

/-- Witness for C1: predicate "is X", input ["a","X","X","b"], maximal run at
indices 1..2: position 1 is emitted, position 2 is not. -/
theorem claim_c1_run_collapse_witness :
    emittedAt (fun s => s == "X") ["a", "X", "X", "b"] 1 = true ∧
      emittedAt (fun s => s == "X") ["a", "X", "X", "b"] 2 = false := by
  have h := claim_c1_run_collapse (fun s => s == "X") ["a", "X", "X", "b"] 1 2
    (by decide) (by decide)
    (by intro j h1 h2; interval_cases j <;> decide)
    (by decide) (by decide)
  refine ⟨(h.1 1 (by decide) (by decide)).mpr rfl, ?_⟩
  have h2 := h.1 2 (by decide) (by decide)
  by_cases hb : emittedAt (fun s => s == "X") ["a", "X", "X", "b"] 2 = true
  · exact absurd (h2.mp hb) (by decide)
  · simpa using hb

/-- C2: every non-matching line is emitted exactly once and the non-matching
lines keep their relative input order: filtering the output down to the
non-matching lines gives exactly the non-matching lines of the input. -/
theorem claim_c2_nonmatching_passthrough (m : String → Bool) (l : List String) :
    (reUniq m l).filter (fun x => !(m x)) = l.filter (fun x => !(m x)) := by
  rw [reUniq_eq_collapseFrom]
  exact collapseFrom_filter_not m false l

/-- C3 (counterexample): with the predicate matching "Xa", "Xc", "Xd" on input
["Xa","b","Xc","Xd"], the matching lines at indices 0 and 3 are separated by
the non-matching line at index 1, the hypotheses of the claim hold, yet the
line at index 3 is not emitted (neither positionally nor as a value), because
index 3 is adjacent to the matching line at index 2. -/
theorem claim_c3_counterexample :
    (fun s => s == "Xa" || s == "Xc" || s == "Xd") (["Xa", "b", "Xc", "Xd"].getD 0 "") = true ∧
    (fun s => s == "Xa" || s == "Xc" || s == "Xd") (["Xa", "b", "Xc", "Xd"].getD 3 "") = true ∧
    0 < 3 ∧ 3 < (["Xa", "b", "Xc", "Xd"] : List String).length ∧
    (0 < 1 ∧ 1 < 3 ∧
      (fun s => s == "Xa" || s == "Xc" || s == "Xd") (["Xa", "b", "Xc", "Xd"].getD 1 "") = false) ∧
    emittedAt (fun s => s == "Xa" || s == "Xc" || s == "Xd") ["Xa", "b", "Xc", "Xd"] 3 = false ∧
    ¬ ("Xd" ∈ reUniq (fun s => s == "Xa" || s == "Xc" || s == "Xd") ["Xa", "b", "Xc", "Xd"]) := by
  decide

/-- C3 (amended): if two matching lines at indices i < j each begin their own
run — i is index 0 or preceded by a non-matching line, and j is preceded by a
non-matching line (which forces a non-matching separator between them) — then
both are emitted. -/
theorem claim_c3_amended (m : String → Bool) (l : List String) (i j : Nat)
    (hij : i < j) (hj : j < l.length)
    (hmi : m (l.getD i "") = true) (hmj : m (l.getD j "") = true)
    (hi0 : i = 0 ∨ m (l.getD (i - 1) "") = false)
    (hj1 : m (l.getD (j - 1) "") = false) :
    emittedAt m l i = true ∧ emittedAt m l j = true := by
  constructor
  · rw [emittedAt_iff m l i (by omega)]
    rcases hi0 with h | h
    · exact Or.inr (Or.inl h)
    · exact Or.inr (Or.inr h)
  · rw [emittedAt_iff m l j hj]
    exact Or.inr (Or.inr hj1)

/-- Witness for the amended C3: predicate "is X", input ["X","a","X"],
matching lines at indices 0 and 2 are both emitted. -/
theorem claim_c3_amended_witness :
    emittedAt (fun s => s == "X") ["X", "a", "X"] 0 = true ∧
      emittedAt (fun s => s == "X") ["X", "a", "X"] 2 = true :=
  claim_c3_amended (fun s => s == "X") ["X", "a", "X"] 0 2
    (by decide) (by decide) (by decide) (by decide) (Or.inl rfl) (by decide)

/-- C4: if no line matches, the output equals the input element-wise. -/
theorem claim_c4_no_match_identity (m : String → Bool) (l : List String)
    (h : ∀ x ∈ l, m x = false) : reUniq m l = l := by
  rw [reUniq_eq_collapseFrom]
  exact collapseFrom_of_no_match m false l h

/-- Witness for C4: predicate "is X" matches nothing in ["a","b","c"]. -/
theorem claim_c4_no_match_identity_witness :
    reUniq (fun s => s == "X") ["a", "b", "c"] = ["a", "b", "c"] :=
  claim_c4_no_match_identity (fun s => s == "X") ["a", "b", "c"] (by decide)

/-- C5: if every line of a non-empty input matches, the output is exactly the
one-element list holding the line at index 0. -/
theorem claim_c5_all_match_first (m : String → Bool) (l : List String)
    (hne : l ≠ []) (h : ∀ x ∈ l, m x = true) : reUniq m l = [l.getD 0 ""] := by
  rw [reUniq_eq_collapseFrom]
  cases l with
  | nil => exact absurd rfl hne
  | cons a rest =>
    rw [collapseFrom_false_of_all_match m a rest h]
    rfl

/-- Witness for C5: predicate "is X" matches every line of ["X","X","X"]. -/
theorem claim_c5_all_match_first_witness :
    reUniq (fun s => s == "X") ["X", "X", "X"] = [(["X", "X", "X"] : List String).getD 0 ""] :=
  claim_c5_all_match_first (fun s => s == "X") ["X", "X", "X"] (by decide) (by decide)

/-- C6: the empty input produces the empty output, for any predicate. -/
theorem claim_c6_empty (m : String → Bool) : reUniq m ([] : List String) = [] := rfl

/-- C7 (counterexample): on input ["X","X"] with predicate "is X", the final
cursor is 1 (not the sentinel -2), but the only emitted matching line is the
one at index 0: the cursor does not equal the index of any matching line
written to the output, because the loop advances it on suppressed lines too. -/
theorem claim_c7_counterexample :
    foundAfter (fun s => s == "X") ["X", "X"] = 1 ∧
    foundAfter (fun s => s == "X") ["X", "X"] ≠ -2 ∧
    reUniqIdx (fun s => s == "X") ["X", "X"] = [(0, "X")] ∧
    (∀ p ∈ reUniqIdx (fun s => s == "X") ["X", "X"],
      (fun s => s == "X") p.2 = true →
        (p.1 : Int) ≠ foundAfter (fun s => s == "X") ["X", "X"]) := by
  decide

/-- C7 (amended): after a pass over any line sequence (hence over any prefix
of an input), the cursor is either the sentinel -2 — exactly when no line
matches — or the index of the most recently *processed* matching line,
whether or not that line was emitted. -/
theorem claim_c7_amended (m : String → Bool) (l : List String) :
    (foundAfter m l = -2 ∧ ∀ x ∈ l, m x = false) ∨
    (∃ k : Nat, k < l.length ∧ foundAfter m l = (k : Int) ∧
      m (l.getD k "") = true ∧
      ∀ j, k < j → j < l.length → m (l.getD j "") = false) :=
  foundAfter_charact m l

/-- C8 (counterexample): on input ["X"] with predicate "is X", the single line
matches but the predicate is called only once on it — the first `and`
short-circuits into the taken branch — refuting "exactly twice on every
matching line". -/
theorem claim_c8_counterexample :
    (fun s => s == "X") ((["X"] : List String).getD 0 "") = true ∧
    callCounts (fun s => s == "X") ["X"] = [1] := by
  decide

/-- C8 (amended): per line, the predicate is called once on a matching line
whose predecessor does not match (run start), twice on a matching line whose
predecessor matches (run continuation), and twice on every non-matching line;
it is never called more than twice on any line. -/
theorem claim_c8_amended (m : String → Bool) (l : List String) :
    callCounts m l = callsSpec m false l ∧ ∀ c ∈ callCounts m l, c ≤ 2 := by
  refine ⟨callCounts_eq_callsSpec m l, ?_⟩
  rw [callCounts_eq_callsSpec m l]
  exact callsSpec_le_two m false l

/-- C9: the pass is a total function on any finite sequence of lines and any
predicate: it produces an output, which is a subsequence of the input of no
greater length. -/
theorem claim_c9_total (m : String → Bool) (l : List String) :
    ∃ out : List String, reUniq m l = out ∧ List.Sublist out l ∧
      out.length ≤ l.length := by
  refine ⟨reUniq m l, rfl, ?_, ?_⟩
  · rw [reUniq_eq_collapseFrom]
    exact collapseFrom_sublist m false l
  · rw [reUniq_eq_collapseFrom]
    exact (collapseFrom_sublist m false l).length_le

/-- C10: the filter is idempotent: running the pass on its own output returns
that output unchanged. -/
theorem claim_c10_idempotent (m : String → Bool) (l : List String) :
    reUniq m (reUniq m l) = reUniq m l := by
  rw [reUniq_eq_collapseFrom m l, reUniq_eq_collapseFrom m (collapseFrom m false l)]
  exact collapseFrom_idem m l false

end ReUniq
